import Mathlib

/-!
Shallow embedding of the peer-coordination layer of the Cache repository:
the consistent-hashing ring (`consistenthash.Map` in `src/cache/peers.go`,
second half of the file) and the HTTP pool (`HTTPPool` in
`src/unnamed/part_000`) together with the peer client (`httpGetter.Get`,
first half of `src/cache/peers.go`).

Modelling conventions:
* Go strings and `[]byte` values are modelled as Lean `String`s (Go converts
  between the two losslessly; the hash functions consume the raw bytes).
* Go `int`/`uint32` values are modelled as `Nat`; the CRC-32 checksum always
  produces a value below 2^32, and none of the ring arithmetic can overflow
  a 64-bit `int`, so no wrap-around modelling is required.
* A Go `map[int]string` is modelled as a total function `Nat → String`:
  looking up an absent key in Go yields the zero value `""`, which is exactly
  the behaviour of the total function with default `""` updated pointwise.
* A Go `map[string]*httpGetter` is modelled as `String → Option httpGetter`
  (`none` is the `nil` returned for an absent key).
* Fallible Go code returns `Except String α` (the `error` is its message).
* A `panic` in a handler is modelled by the `HTTPResult.panicked` outcome:
  it aborts processing of that one request with the given message.
-/

namespace Cache

/-- Polynomial of the IEEE CRC-32 checksum (reversed representation),
used by Go's `crc32.ChecksumIEEE`. -/
def crc32Poly : Nat := 0xEDB88320

/-- One bit step of the bitwise CRC-32 computation. -/
def crc32Step (c : Nat) : Nat :=
  if c % 2 = 1 then Nat.xor (c / 2) crc32Poly else c / 2

/-- Fold one byte into a running CRC-32 state (eight bit steps). -/
def crc32Byte (c b : Nat) : Nat :=
  (List.range 8).foldl (fun acc _ => crc32Step acc) (Nat.xor c b)

/-- `crc32.ChecksumIEEE` over the bytes of a string: the default hash
installed by `consistenthash.New` when the caller passes `nil`
(`src/cache/peers.go` line 90). No theorem below depends on its values;
it is here so that the default-hash path of the source is represented. -/
def crc32 (s : String) : Nat :=
  Nat.xor ((s.toUTF8.toList.map (fun b => b.toNat)).foldl crc32Byte 0xFFFFFFFF) 0xFFFFFFFF

/-- `consistenthash.Map` (`src/cache/peers.go` lines 75-80): hash function,
virtual-replica count, the sorted list of ring points, and the point → node
table (Go `map[int]string`, total with default `""`). -/
structure Map where
  hash : String → Nat
  replicates : Nat
  keys : List Nat
  hashMap : Nat → String

/-- `consistenthash.New` (`src/cache/peers.go` lines 82-93): a `nil` hash
function defaults to `crc32.ChecksumIEEE`. -/
def Map.New (replicats : Nat) (fn : Option (String → Nat)) : Map :=
  { replicates := replicats
    hash := fn.getD crc32
    keys := []
    hashMap := fun _ => "" }

/-- One iteration of the inner loop of `Map.Add` (`src/cache/peers.go`
lines 104-106): compute `hash := m.hash(strconv.Itoa(i) + key)`, append it to
`keys` and bind it to `key` in `hashMap`. -/
def addStep (key : String) (a : Map) (i : Nat) : Map :=
  { a with
    keys := a.keys ++ [a.hash (Nat.repr i ++ key)]
    hashMap := Function.update a.hashMap (a.hash (Nat.repr i ++ key)) key }

/-- The inner loop of `Map.Add` for a single real node (`src/cache/peers.go`
lines 103-107): run `addStep` for `i` in `[0, replicates)`. -/
def Map.addOne (m : Map) (key : String) : Map :=
  (List.range m.replicates).foldl (addStep key) m

/-- `Map.Add` (`src/cache/peers.go` lines 101-110): add every node of the
(variadic) list, then re-sort the point list ascending (`sort.Ints`, modelled
by its contract as an ascending sort). -/
def Map.Add (m : Map) (ks : List String) : Map :=
  let m2 := ks.foldl Map.addOne m
  { m2 with keys := List.insertionSort (· ≤ ·) m2.keys }

/-- A sequence of `Add` calls, used to state properties about every node that
has *ever* been added to a ring. -/
def Map.AddAll (m : Map) (batches : List (List String)) : Map :=
  batches.foldl Map.Add m

/-- Linear scan underlying `sortSearch`: first index `k ≥ i` (scanning `fuel`
candidates) with `f k = true`, else `i + fuel`. -/
def searchLoop (f : Nat → Bool) : Nat → Nat → Nat
  | 0, i => i
  | fuel+1, i => if f i then i else searchLoop f fuel (i+1)

/-- Go's `sort.Search(n, f)`, modelled by its documented contract: the
smallest index `i` in `[0, n)` at which `f i` is true, assuming `f` is
monotone (false then true); `n` if there is none. -/
def sortSearch (n : Nat) (f : Nat → Bool) : Nat := searchLoop f n 0

/-- `Map.Get` (`src/cache/peers.go` lines 112-122): `""` on an empty ring,
otherwise binary-search the first point `≥ hash(key)` and look the point up
in `hashMap`, wrapping to index 0 via `idx % len(keys)`. -/
def Map.Get (m : Map) (key : String) : String :=
  if m.keys.length = 0 then ""
  else
    let hash := m.hash key
    let idx := sortSearch m.keys.length (fun i => decide (m.keys.getD i 0 ≥ hash))
    m.hashMap (m.keys.getD (idx % m.keys.length) 0)

/-- The virtual points placed for one real node `nd`:
`hash (strconv.Itoa i ++ nd)` for `i ∈ [0, r)`. -/
def nodePoints (fn : String → Nat) (r : Nat) (nd : String) : List Nat :=
  (List.range r).map (fun i => fn (Nat.repr i ++ nd))

/-- All virtual points placed for a list of nodes, in insertion order. -/
def allPoints (fn : String → Nat) (r : Nat) : List String → List Nat
  | [] => []
  | nd :: nds => nodePoints fn r nd ++ allPoints fn r nds

/-- The last node of `nds` (in add order) owning point `p`, if any: this is
the last-writer-wins content of `hashMap p` after adding `nds`. -/
def lastOwner? (fn : String → Nat) (r : Nat) (nds : List String) (p : Nat) : Option String :=
  nds.reverse.find? (fun nd => decide (p ∈ nodePoints fn r nd))

/-- The ring point a hash value `h` resolves to in a sorted point list:
the first point `≥ h`, wrapping to the smallest point when none is. -/
def selPoint (h : Nat) (l : List Nat) : Nat :=
  match l.find? (fun q => decide (h ≤ q)) with
  | some q => q
  | none => l.headD 0

/-- The hash function a ring constructed with `Map.New _ ofn` actually uses. -/
def hashFn (ofn : Option (String → Nat)) : String → Nat := ofn.getD crc32

/-- A ring freshly built from one `Add` call, as `HTTPPool.Set` does. -/
def ringOf (ofn : Option (String → Nat)) (r : Nat) (nds : List String) : Map :=
  (Map.New r ofn).Add nds

/-- A ring built from a whole history of `Add` calls. -/
def ringOfAll (ofn : Option (String → Nat)) (r : Nat) (batches : List (List String)) : Map :=
  (Map.New r ofn).AddAll batches

/-- The effective weight of node `nd` on ring `m`: the number of ring points
(counted with multiplicity) currently bound to `nd`. -/
def Map.weight (m : Map) (nd : String) : Nat :=
  m.keys.countP (fun p => decide (m.hashMap p = nd))

/-- `httpGetter` (`src/cache/peers.go` lines 24-26). -/
structure httpGetter where
  baseURL : String
  deriving DecidableEq

/-- The protobuf `Response` message: a single `value: bytes` field. -/
structure PbResponse where
  value : List Nat
  deriving DecidableEq

/-- The result of `http.Get` as `httpGetter.Get` consumes it: status code and
status text, plus the outcome of `ioutil.ReadAll(res.Body)` — the bytes it
returned and the error it returned alongside them (`none` for a clean read). -/
structure HttpResponse where
  statusCode : Nat
  status : String
  bodyBytes : List Nat
  readError : Option String

/-- `httpGetter.Get` (`src/cache/peers.go` lines 28-51), parametrised by the
transport (`http.Get`), the protobuf decoder (`proto.Unmarshal`) and the URL
escaper (`url.QueryEscape`), which live outside this repository.

Note the faithful rendering of lines 43-49 of the source: the error returned
by `ioutil.ReadAll` is stored in `err`, but the very next statement
`if err = proto.Unmarshal(bytes, out); err != nil` overwrites it before it is
ever tested.  The subsequent `if err != nil { "reading response body" }`
branch re-tests the (by then nil) `Unmarshal` error, so it is dead code and
`res.readError` is never consulted: a read failure is silently dropped. -/
def httpGetter.Get
    (transport : String → Except String HttpResponse)
    (unmarshal : List Nat → Except String PbResponse)
    (queryEscape : String → String)
    (h : httpGetter) (group key : String) : Except String PbResponse :=
  let u := h.baseURL ++ queryEscape group ++ "/" ++ queryEscape key
  match transport u with
  | Except.error e => Except.error e
  | Except.ok res =>
    if res.statusCode ≠ 200 then Except.error ("server returned: " ++ res.status)
    else
      match unmarshal res.bodyBytes with
      | Except.error e => Except.error ("decoding response body: " ++ e)
      | Except.ok out => Except.ok out

/-- `defaultBasePath` (`src/unnamed/part_000` line 15). -/
def defaultBasePath : String := "/_cache/"

/-- `defaultReplicate` (`src/unnamed/part_000` line 16). -/
def defaultReplicate : Nat := 50

/-- `HTTPPool` (`src/unnamed/part_000` lines 20-26).  The mutex only guards
the two swapped fields and has no observable effect on the sequential
semantics modelled here; `peers` is `none` before the first `Set` (a `nil`
pointer in Go; calling through it panics). -/
structure HTTPPool where
  self : String
  basePath : String
  peers : Option Map
  httpGetters : String → Option httpGetter

/-- `NewHttpPool` (`src/unnamed/part_000` lines 29-34): `peers` and
`httpGetters` start as Go zero values (`nil`). -/
def NewHttpPool (self : String) : HTTPPool :=
  { self := self
    basePath := defaultBasePath
    peers := none
    httpGetters := fun _ => none }

/-- `HTTPPool.Set` (`src/unnamed/part_000` lines 78-87): build a brand-new
ring with `defaultReplicate` replicas and the default (`nil` → CRC-32) hash,
add all peers, and rebuild the getter map from scratch, one client per peer
with base URL `peer + basePath`. -/
def HTTPPool.Set (p : HTTPPool) (peersList : List String) : HTTPPool :=
  { p with
    peers := some ((Map.New defaultReplicate none).Add peersList)
    httpGetters :=
      peersList.foldl
        (fun g peer => Function.update g peer (some { baseURL := peer ++ p.basePath }))
        (fun _ => none) }

/-- `HTTPPool.PickPeer` (`src/unnamed/part_000` lines 89-97).  The outer
`Option` is `none` exactly when `p.peers` is `nil` and the Go code would
dereference a nil pointer; otherwise the pair `(client, found)` is returned
as in the source: `(p.httpGetters[peer], true)` when the ring's answer is
non-empty and differs from `self`, `(nil, false)` otherwise. -/
def HTTPPool.PickPeer (p : HTTPPool) (key : String) : Option (Option httpGetter × Bool) :=
  match p.peers with
  | none => none
  | some m =>
    let peer := m.Get key
    if peer ≠ "" ∧ peer ≠ p.self then some (p.httpGetters peer, true)
    else some (none, false)

/-- Node identifiers the current ring of a pool can return for some key.
The empty string is excluded: per the spec (§3, §4.1) a node identifier
names a reachable peer and `""` is the ring's empty/absent sentinel, not a
node identifier. -/
def HTTPPool.ringReturnable (p : HTTPPool) (n : String) : Prop :=
  n ≠ "" ∧ ∃ m, p.peers = some m ∧ ∃ key, m.Get key = n

/-- Outcome of one `ServeHTTP` call. `panicked` models a Go `panic` escaping
the handler: processing of that one request is aborted with the message
(Go's `net/http` server recovers handler panics per request, so only the
active request is affected). -/
inductive HTTPResult where
  | panicked (msg : String)
  | errorResp (status : Nat) (msg : String)
  | ok (contentType : String) (body : List Nat)
  deriving DecidableEq

/-- `strings.SplitN(s, "/", 2)`: the whole string when it has no slash,
otherwise the part before the first slash and everything after it. -/
def splitN2 (s : String) : List String :=
  match s.toList.findIdx? (fun c => decide (c = '/')) with
  | some i => [String.mk (s.toList.take i), String.mk (s.toList.drop (i+1))]
  | none => [s]

/-- `HTTPPool.ServeHTTP` (`src/unnamed/part_000` lines 43-76), parametrised
by the collaborators that live outside this repository's core:
`getGroup` — modelled from the spec (§6): the process-wide group registry
`getGroup(name) → group-or-absent`, a group being its local
`get(key) → (bytes, error)`; and `marshal` — `proto.Marshal` of a `Response`
holding the returned bytes.  `path` is `r.URL.Path` (already percent-decoded
by `net/http`); `strings.HasPrefix` and the byte slice
`r.URL.Path[len(p.basePath):]` are modelled on the character list of the
path (Go slices the same bytes).  The `p.Log` call is an output side effect with no influence
on the result and is not modelled. -/
def ServeHTTP (p : HTTPPool)
    (getGroup : String → Option (String → Except String (List Nat)))
    (marshal : List Nat → Except String (List Nat))
    (path : String) : HTTPResult :=
  if !(p.basePath.toList.isPrefixOf path.toList) then
    HTTPResult.panicked ("HTTPPool serving unexpected path: " ++ path)
  else
    let parts := splitN2 (String.mk (path.toList.drop p.basePath.toList.length))
    if parts.length ≠ 2 then HTTPResult.errorResp 400 ("bad request")
    else
      let groupName := parts.getD 0 ""
      let key := parts.getD 1 ""
      match getGroup groupName with
      | none => HTTPResult.errorResp 404 ("no such group: " ++ groupName)
      | some g =>
        match g key with
        | Except.error e => HTTPResult.errorResp 500 e
        | Except.ok view =>
          match marshal view with
          | Except.error e => HTTPResult.errorResp 500 e
          | Except.ok body => HTTPResult.ok ("application/octet-stream") body

/-! ### Lemmas about the search loop -/

theorem searchLoop_ge (f : Nat → Bool) : ∀ fuel i, i ≤ searchLoop f fuel i := by
  intro fuel
  induction fuel with
  | zero => intro i; exact Nat.le_refl i
  | succ n ih =>
    intro i
    by_cases h : f i = true
    · simp [searchLoop, h]
    · simp only [searchLoop, h, if_false, Bool.false_eq_true]
      exact Nat.le_trans (Nat.le_succ i) (ih (i + 1))

theorem searchLoop_le (f : Nat → Bool) : ∀ fuel i, searchLoop f fuel i ≤ i + fuel := by
  intro fuel
  induction fuel with
  | zero => intro i; simp [searchLoop]
  | succ n ih =>
    intro i
    by_cases h : f i = true
    · simp [searchLoop, h]
    · simp only [searchLoop, h, if_false, Bool.false_eq_true]
      have := ih (i + 1)
      omega

theorem searchLoop_min (f : Nat → Bool) :
    ∀ fuel i k, i ≤ k → k < searchLoop f fuel i → f k = false := by
  intro fuel
  induction fuel with
  | zero => intro i k hik hk; simp [searchLoop] at hk; omega
  | succ n ih =>
    intro i k hik hk
    by_cases h : f i = true
    · simp [searchLoop, h] at hk; omega
    · simp only [searchLoop, h, if_false, Bool.false_eq_true] at hk
      rcases Nat.eq_or_lt_of_le hik with heq | hlt
      · subst heq; exact Bool.eq_false_iff.mpr h
      · exact ih (i + 1) k hlt hk

theorem searchLoop_found (f : Nat → Bool) :
    ∀ fuel i, searchLoop f fuel i < i + fuel → f (searchLoop f fuel i) = true := by
  intro fuel
  induction fuel with
  | zero => intro i h; simp [searchLoop] at h
  | succ n ih =>
    intro i h
    by_cases hf : f i = true
    · simp [searchLoop, hf]
    · simp only [searchLoop, hf, if_false, Bool.false_eq_true] at h ⊢
      exact ih (i + 1) (by omega)

/-! ### Characterisation of `Map.addOne`, `Map.Add`, `Map.AddAll` -/

theorem foldl_addStep_spec (key : String) (l : List Nat) : ∀ m : Map,
    ((l.foldl (addStep key) m).hash = m.hash)
    ∧ ((l.foldl (addStep key) m).replicates = m.replicates)
    ∧ ((l.foldl (addStep key) m).keys
        = m.keys ++ l.map (fun i => m.hash (Nat.repr i ++ key)))
    ∧ (∀ p, (l.foldl (addStep key) m).hashMap p
        = if p ∈ l.map (fun i => m.hash (Nat.repr i ++ key)) then key
          else m.hashMap p) := by
  induction l with
  | nil =>
    intro m
    refine ⟨rfl, rfl, by simp, fun p => by simp⟩
  | cons i t ih =>
    intro m
    obtain ⟨h1, h2, h3, h4⟩ := ih (addStep key m i)
    refine ⟨h1, h2, ?_, ?_⟩
    · rw [List.foldl_cons, h3]
      simp [addStep, List.append_assoc]
    · intro p
      rw [List.foldl_cons, h4 p]
      simp only [addStep, List.map_cons, List.mem_cons]
      by_cases hmem : p ∈ t.map (fun i => m.hash (Nat.repr i ++ key))
      · simp [hmem]
      · simp only [hmem, if_false, or_false]
        by_cases hp : p = m.hash (Nat.repr i ++ key)
        · simp [hp, Function.update_apply]
        · simp [hp, Function.update_apply]

theorem addOne_hash (m : Map) (key : String) : (m.addOne key).hash = m.hash :=
  (foldl_addStep_spec key (List.range m.replicates) m).1

theorem addOne_replicates (m : Map) (key : String) :
    (m.addOne key).replicates = m.replicates :=
  (foldl_addStep_spec key (List.range m.replicates) m).2.1

theorem addOne_keys (m : Map) (key : String) :
    (m.addOne key).keys = m.keys ++ nodePoints m.hash m.replicates key :=
  (foldl_addStep_spec key (List.range m.replicates) m).2.2.1

theorem addOne_hashMap (m : Map) (key : String) (p : Nat) :
    (m.addOne key).hashMap p
      = if p ∈ nodePoints m.hash m.replicates key then key else m.hashMap p :=
  (foldl_addStep_spec key (List.range m.replicates) m).2.2.2 p

theorem foldl_addOne_spec (nds : List String) : ∀ m : Map,
    ((nds.foldl Map.addOne m).hash = m.hash)
    ∧ ((nds.foldl Map.addOne m).replicates = m.replicates)
    ∧ ((nds.foldl Map.addOne m).keys
        = m.keys ++ allPoints m.hash m.replicates nds)
    ∧ (∀ p, (nds.foldl Map.addOne m).hashMap p
        = (lastOwner? m.hash m.replicates nds p).getD (m.hashMap p)) := by
  induction nds with
  | nil =>
    intro m
    refine ⟨rfl, rfl, by simp [allPoints], fun p => by simp [lastOwner?]⟩
  | cons nd t ih =>
    intro m
    obtain ⟨h1, h2, h3, h4⟩ := ih (m.addOne nd)
    have hh := addOne_hash m nd
    have hr := addOne_replicates m nd
    refine ⟨by rw [List.foldl_cons, h1, hh], by rw [List.foldl_cons, h2, hr], ?_, ?_⟩
    · rw [List.foldl_cons, h3, hh, hr, addOne_keys, allPoints, List.append_assoc]
    · intro p
      rw [List.foldl_cons, h4 p, hh, hr, addOne_hashMap]
      unfold lastOwner?
      rw [List.reverse_cons, List.find?_append]
      cases hfind : List.find? (fun nd => decide (p ∈ nodePoints m.hash m.replicates nd))
          t.reverse with
      | some x => simp [hfind]
      | none =>
        simp only [hfind, Option.none_or]
        by_cases hp : p ∈ nodePoints m.hash m.replicates nd
        · simp [List.find?, hp]
        · simp [List.find?, hp]

theorem Add_hash (m : Map) (nds : List String) : (m.Add nds).hash = m.hash :=
  (foldl_addOne_spec nds m).1

theorem Add_replicates (m : Map) (nds : List String) :
    (m.Add nds).replicates = m.replicates :=
  (foldl_addOne_spec nds m).2.1

theorem Add_keys (m : Map) (nds : List String) :
    (m.Add nds).keys
      = List.insertionSort (· ≤ ·) (m.keys ++ allPoints m.hash m.replicates nds) := by
  show List.insertionSort (· ≤ ·) (nds.foldl Map.addOne m).keys = _
  rw [(foldl_addOne_spec nds m).2.2.1]

theorem Add_hashMap (m : Map) (nds : List String) (p : Nat) :
    (m.Add nds).hashMap p
      = (lastOwner? m.hash m.replicates nds p).getD (m.hashMap p) :=
  (foldl_addOne_spec nds m).2.2.2 p

theorem allPoints_append (fn : String → Nat) (r : Nat) (a b : List String) :
    allPoints fn r (a ++ b) = allPoints fn r a ++ allPoints fn r b := by
  induction a with
  | nil => simp [allPoints]
  | cons nd t ih => simp [allPoints, ih]

theorem mem_allPoints {fn : String → Nat} {r : Nat} {nds : List String} {p : Nat} :
    p ∈ allPoints fn r nds ↔ ∃ nd ∈ nds, p ∈ nodePoints fn r nd := by
  induction nds with
  | nil => simp [allPoints]
  | cons nd t ih => simp [allPoints, ih, List.mem_append]

theorem mem_nodePoints_zero (fn : String → Nat) {r : Nat} (hr : 1 ≤ r) (nd : String) :
    fn (Nat.repr 0 ++ nd) ∈ nodePoints fn r nd := by
  unfold nodePoints
  exact List.mem_map_of_mem _ (List.mem_range.mpr (by omega))

theorem lastOwner?_eq_none {fn : String → Nat} {r : Nat} {nds : List String} {p : Nat}
    (h : p ∉ allPoints fn r nds) : lastOwner? fn r nds p = none := by
  unfold lastOwner?
  rw [List.find?_eq_none]
  intro nd hnd
  simp only [decide_eq_true_eq]
  intro hp
  exact h (mem_allPoints.mpr ⟨nd, List.mem_reverse.mp hnd, hp⟩)

theorem lastOwner?_isSome {fn : String → Nat} {r : Nat} {nds : List String} {p : Nat}
    (h : p ∈ allPoints fn r nds) : ∃ x, lastOwner? fn r nds p = some x := by
  cases hfind : lastOwner? fn r nds p with
  | some x => exact ⟨x, rfl⟩
  | none =>
    obtain ⟨nd, hnd, hp⟩ := mem_allPoints.mp h
    unfold lastOwner? at hfind
    rw [List.find?_eq_none] at hfind
    exact absurd (by simpa using hp) (hfind nd (List.mem_reverse.mpr hnd))

theorem lastOwner?_mem {fn : String → Nat} {r : Nat} {nds : List String} {p : Nat} {x : String}
    (h : lastOwner? fn r nds p = some x) : x ∈ nds ∧ p ∈ nodePoints fn r x := by
  unfold lastOwner? at h
  exact ⟨List.mem_reverse.mp (List.mem_of_find?_eq_some h),
    by simpa using List.find?_some h⟩

/-- Erasing an element other than the one `find?` returns does not change
what `find?` returns. -/
theorem find?_erase_of_ne {α : Type} [BEq α] [LawfulBEq α] {pred : α → Bool}
    {l : List α} {x n : α} (h : l.find? pred = some x) (hx : x ≠ n) :
    (l.erase n).find? pred = some x := by
  induction l with
  | nil => simp at h
  | cons a t ih =>
    rw [List.erase_cons]
    by_cases hpa : pred a = true
    · rw [List.find?_cons, hpa] at h
      have hax : a = x := by simpa using h
      have : (a == n) = false := by
        rw [beq_eq_false_iff_ne]; rw [hax]; exact hx
      rw [this]
      simp only [Bool.false_eq_true, if_false]
      rw [List.find?_cons, hpa]
      exact h
    · rw [List.find?_cons] at h
      simp only [hpa] at h
      by_cases han : (a == n) = true
      · simp only [han, if_true]
        simpa [Bool.false_eq_true] using h
      · simp only [han, Bool.false_eq_true, if_false]
        rw [List.find?_cons]
        simp only [hpa, Bool.false_eq_true]
        exact ih (by simpa [Bool.false_eq_true] using h)

/-- For a duplicate-free list, erasing commutes with reversal. -/
theorem reverse_erase_of_nodup {α : Type} [BEq α] [LawfulBEq α] {l : List α}
    (hnd : l.Nodup) (a : α) : (l.erase a).reverse = l.reverse.erase a := by
  induction l with
  | nil => simp
  | cons b t ih =>
    have hbt : b ∉ t := (List.nodup_cons.mp hnd).1
    have hnt : t.Nodup := (List.nodup_cons.mp hnd).2
    rw [List.erase_cons, List.reverse_cons]
    by_cases hba : (b == a) = true
    · have hba' : b = a := eq_of_beq hba
      rw [if_pos hba]
      have : a ∉ t.reverse := by
        rw [List.mem_reverse]; rw [← hba']; exact hbt
      rw [List.erase_append_right _ this]
      simp [List.erase_cons, hba']
    · rw [if_neg (by simp_all)]
      rw [List.reverse_cons, ih hnt]
      by_cases hat : a ∈ t.reverse
      · rw [List.erase_append_left _ hat]
      · rw [List.erase_append_right _ hat]
        have hab : a ≠ b := fun hh => by simp [hh] at hba
        rw [List.erase_of_not_mem (l := t.reverse) hat]
        simp [List.erase_cons, beq_eq_false_iff_ne.mpr (Ne.symm hab)]

theorem lastOwner?_erase {fn : String → Nat} {r : Nat} {nds : List String}
    {p : Nat} {x n : String} (hnd : nds.Nodup)
    (h : lastOwner? fn r nds p = some x) (hx : x ≠ n) :
    lastOwner? fn r (nds.erase n) p = some x := by
  unfold lastOwner? at h ⊢
  rw [reverse_erase_of_nodup hnd]
  exact find?_erase_of_ne h hx

/-! ### `Map.Get` on a sorted ring -/

theorem sorted_head_min {a : Nat} {t : List Nat}
    (hs : List.Sorted (· ≤ ·) (a :: t)) : ∀ x ∈ a :: t, a ≤ x := by
  intro x hx
  rcases List.mem_cons.mp hx with h | h
  · omega
  · exact (List.sorted_cons.mp hs).1 x h

theorem sorted_find?_min {h : Nat} {l : List Nat} {q : Nat}
    (hs : List.Sorted (· ≤ ·) l)
    (hf : l.find? (fun v => decide (h ≤ v)) = some q) :
    ∀ x ∈ l, h ≤ x → q ≤ x := by
  induction l with
  | nil => simp at hf
  | cons a t ih =>
    intro x hx hhx
    rw [List.find?_cons] at hf
    by_cases hha : h ≤ a
    · simp only [decide_eq_true hha] at hf
      have : a = q := by simpa using hf
      subst this
      exact sorted_head_min hs x hx
    · simp only [decide_eq_false hha] at hf
      rcases List.mem_cons.mp hx with rfl | hxt
      · exact absurd hhx hha
      · exact ih (List.sorted_cons.mp hs).2 hf x hxt hhx

theorem find?_first (pred : Nat → Bool) :
    ∀ (l : List Nat) (i : Nat), i < l.length →
      (∀ j, j < i → pred (l.getD j 0) = false) → pred (l.getD i 0) = true →
      l.find? pred = some (l.getD i 0) := by
  intro l
  induction l with
  | nil => intro i hi; simp at hi
  | cons a t ih =>
    intro i hi hbefore hhere
    cases i with
    | zero =>
      rw [List.find?_cons]
      simp only [List.getD_cons_zero] at hhere ⊢
      simp [hhere]
    | succ k =>
      have ha : pred a = false := by simpa using hbefore 0 (Nat.succ_pos k)
      rw [List.find?_cons, ha]
      simp only [List.getD_cons_succ] at hhere ⊢
      exact ih k (by simpa using hi)
        (fun j hj => by simpa using hbefore (j + 1) (by omega)) hhere

theorem getD_headD {l : List Nat} : l.getD 0 0 = l.headD 0 := by
  cases l <;> rfl

theorem selPoint_mem {h : Nat} {l : List Nat} (hne : l ≠ []) : selPoint h l ∈ l := by
  unfold selPoint
  cases hf : l.find? (fun q => decide (h ≤ q)) with
  | some q => exact List.mem_of_find?_eq_some hf
  | none =>
    cases l with
    | nil => exact absurd rfl hne
    | cons a t => exact List.mem_cons_self a t

theorem Get_eq_selPoint (m : Map) (key : String) (hne : m.keys ≠ []) :
    m.Get key = m.hashMap (selPoint (m.hash key) m.keys) := by
  have hlen : m.keys.length ≠ 0 := fun h => hne (List.eq_nil_of_length_eq_zero h)
  have hmain : ∀ hsh : Nat,
      m.keys.getD
        (sortSearch m.keys.length (fun i => decide (m.keys.getD i 0 ≥ hsh))
          % m.keys.length) 0
        = selPoint hsh m.keys := by
    intro hsh
    set f : Nat → Bool := fun i => decide (m.keys.getD i 0 ≥ hsh) with hf
    set idx := sortSearch m.keys.length f with hidx
    have hle : idx ≤ m.keys.length := by
      have := searchLoop_le f m.keys.length 0
      simpa [sortSearch, hidx] using this
    have hmin : ∀ k, k < idx → f k = false := by
      intro k hk
      exact searchLoop_min f m.keys.length 0 k (Nat.zero_le k) hk
    rcases Nat.lt_or_ge idx m.keys.length with hlt | hge
    · have hfound : f idx = true := by
        have := searchLoop_found f m.keys.length 0 (by simpa using hlt)
        simpa [sortSearch, hidx] using this
      rw [Nat.mod_eq_of_lt hlt]
      have hsel : selPoint hsh m.keys = m.keys.getD idx 0 := by
        unfold selPoint
        rw [find?_first (fun q => decide (hsh ≤ q)) m.keys idx hlt
          (fun j hj => by
            have := hmin j hj
            simp only [hf, decide_eq_false_iff_not, ge_iff_le] at this
            exact decide_eq_false this)
          (by
            have := hfound
            simp only [hf, decide_eq_true_eq, ge_iff_le] at this
            exact decide_eq_true this)]
      exact hsel.symm
    · have hidxeq : idx = m.keys.length := Nat.le_antisymm hle hge
      have hnone : m.keys.find? (fun q => decide (hsh ≤ q)) = none := by
        rw [List.find?_eq_none]
        intro x hx
        obtain ⟨k, hk, hkx⟩ := List.getElem_of_mem hx
        have hfk := hmin k (by omega)
        simp only [hf, decide_eq_false_iff_not, ge_iff_le] at hfk
        simp only [decide_eq_true_eq]
        have hgetD : m.keys.getD k 0 = x := by
          rw [List.getD_eq_getElem?_getD, List.getElem?_eq_getElem hk]
          simpa using hkx
        rw [← hgetD]
        exact hfk
      have hsel : selPoint hsh m.keys = m.keys.headD 0 := by
        unfold selPoint; rw [hnone]
      rw [hidxeq, Nat.mod_self, getD_headD]
      exact hsel.symm
  unfold Map.Get
  rw [if_neg hlen]
  exact congrArg m.hashMap (hmain (m.hash key))

theorem selPoint_eq_of_sub {h : Nat} {A B : List Nat}
    (sA : List.Sorted (· ≤ ·) A) (sB : List.Sorted (· ≤ ·) B)
    (sub : ∀ q ∈ B, q ∈ A) (hmem : selPoint h A ∈ B) :
    selPoint h B = selPoint h A := by
  cases hA : A.find? (fun q => decide (h ≤ q)) with
  | some q =>
    have hpA : selPoint h A = q := by unfold selPoint; rw [hA]
    have hq : h ≤ q := by simpa using List.find?_some hA
    have hminA := sorted_find?_min sA hA
    rw [hpA] at hmem
    have hBfind : ∃ q2, B.find? (fun v => decide (h ≤ v)) = some q2 := by
      cases hB : B.find? (fun v => decide (h ≤ v)) with
      | some q2 => exact ⟨q2, rfl⟩
      | none =>
        rw [List.find?_eq_none] at hB
        exact absurd (by simpa using hq) (hB q hmem)
    obtain ⟨q2, hB⟩ := hBfind
    have hpB : selPoint h B = q2 := by unfold selPoint; rw [hB]
    have hq2 : h ≤ q2 := by simpa using List.find?_some hB
    have hminB := sorted_find?_min sB hB
    have h1 : q ≤ q2 := hminA q2 (sub q2 (List.mem_of_find?_eq_some hB)) hq2
    have h2 : q2 ≤ q := hminB q hmem hq
    rw [hpA, hpB]; omega
  | none =>
    have hallA : ∀ x ∈ A, ¬ h ≤ x := by
      rw [List.find?_eq_none] at hA
      intro x hx
      simpa using hA x hx
    have hB : B.find? (fun v => decide (h ≤ v)) = none := by
      rw [List.find?_eq_none]
      intro x hx
      simpa using hallA x (sub x hx)
    cases B with
    | nil => simp at hmem
    | cons b tB =>
      cases A with
      | nil =>
        have hbA : b ∈ ([] : List Nat) := sub b (List.mem_cons_self b tB)
        simp at hbA
      | cons a tA =>
        have hpA : selPoint h (a :: tA) = a := by
          unfold selPoint; rw [hA]; rfl
        have hpB : selPoint h (b :: tB) = b := by
          unfold selPoint; rw [hB]; rfl
        have hab : a ≤ b :=
          sorted_head_min sA b (sub b (List.mem_cons_self b tB))
        have hba : b ≤ a := by
          rw [hpA] at hmem
          exact sorted_head_min sB a hmem
        rw [hpA, hpB]; omega

/-! ### The rings built by `ringOf` and `ringOfAll` -/

theorem ringOf_hash (ofn : Option (String → Nat)) (r : Nat) (nds : List String) :
    (ringOf ofn r nds).hash = hashFn ofn :=
  Add_hash (Map.New r ofn) nds

theorem ringOf_replicates (ofn : Option (String → Nat)) (r : Nat) (nds : List String) :
    (ringOf ofn r nds).replicates = r :=
  Add_replicates (Map.New r ofn) nds

theorem ringOf_keys (ofn : Option (String → Nat)) (r : Nat) (nds : List String) :
    (ringOf ofn r nds).keys
      = List.insertionSort (· ≤ ·) (allPoints (hashFn ofn) r nds) := by
  unfold ringOf
  rw [Add_keys]
  rfl

theorem ringOf_hashMap (ofn : Option (String → Nat)) (r : Nat) (nds : List String) (p : Nat) :
    (ringOf ofn r nds).hashMap p = (lastOwner? (hashFn ofn) r nds p).getD "" :=
  Add_hashMap (Map.New r ofn) nds p

theorem ringOf_keys_sorted (ofn : Option (String → Nat)) (r : Nat) (nds : List String) :
    List.Sorted (· ≤ ·) (ringOf ofn r nds).keys := by
  rw [ringOf_keys]
  exact List.sorted_insertionSort (· ≤ ·) _

theorem ringOf_keys_perm (ofn : Option (String → Nat)) (r : Nat) (nds : List String) :
    (ringOf ofn r nds).keys.Perm (allPoints (hashFn ofn) r nds) := by
  rw [ringOf_keys]
  exact List.perm_insertionSort (· ≤ ·) _

theorem allPoints_length (fn : String → Nat) (r : Nat) (nds : List String) :
    (allPoints fn r nds).length = r * nds.length := by
  induction nds with
  | nil => simp [allPoints]
  | cons nd t ih =>
    simp [allPoints, ih, nodePoints, Nat.mul_succ]
    omega

theorem lastOwner?_append (fn : String → Nat) (r : Nat) (x y : List String) (p : Nat) :
    lastOwner? fn r (x ++ y) p = (lastOwner? fn r y p).or (lastOwner? fn r x p) := by
  unfold lastOwner?
  rw [List.reverse_append, List.find?_append]

theorem or_getD (o1 o2 : Option String) (d : String) :
    (o1.or o2).getD d = o1.getD (o2.getD d) := by
  cases o1 <;> cases o2 <;> rfl

theorem foldl_Add_spec (batches : List (List String)) : ∀ m : Map,
    ((batches.foldl Map.Add m).hash = m.hash)
    ∧ ((batches.foldl Map.Add m).replicates = m.replicates)
    ∧ ((batches.foldl Map.Add m).keys.Perm
        (m.keys ++ allPoints m.hash m.replicates batches.flatten))
    ∧ (∀ p, (batches.foldl Map.Add m).hashMap p
        = (lastOwner? m.hash m.replicates batches.flatten p).getD (m.hashMap p)) := by
  induction batches with
  | nil =>
    intro m
    refine ⟨rfl, rfl, by simp [allPoints], fun p => by simp [lastOwner?]⟩
  | cons b bs ih =>
    intro m
    obtain ⟨h1, h2, h3, h4⟩ := ih (m.Add b)
    have hh := Add_hash m b
    have hr := Add_replicates m b
    refine ⟨by rw [List.foldl_cons, h1, hh], by rw [List.foldl_cons, h2, hr], ?_, ?_⟩
    · rw [List.foldl_cons]
      have hAddPerm : (m.Add b).keys.Perm (m.keys ++ allPoints m.hash m.replicates b) := by
        rw [Add_keys]
        exact List.perm_insertionSort (· ≤ ·) _
      have step1 : (bs.foldl Map.Add (m.Add b)).keys.Perm
          ((m.Add b).keys ++ allPoints m.hash m.replicates bs.flatten) := by
        rw [← hh, ← hr]
        exact h3
      refine step1.trans ?_
      refine (hAddPerm.append_right _).trans ?_
      rw [List.flatten_cons, allPoints_append, List.append_assoc]
    · intro p
      rw [List.foldl_cons, h4 p, hh, hr, Add_hashMap, List.flatten_cons,
        lastOwner?_append, or_getD]

theorem ringOfAll_hash (ofn : Option (String → Nat)) (r : Nat) (batches : List (List String)) :
    (ringOfAll ofn r batches).hash = hashFn ofn :=
  (foldl_Add_spec batches (Map.New r ofn)).1

theorem ringOfAll_replicates (ofn : Option (String → Nat)) (r : Nat)
    (batches : List (List String)) :
    (ringOfAll ofn r batches).replicates = r :=
  (foldl_Add_spec batches (Map.New r ofn)).2.1

theorem ringOfAll_keys_perm (ofn : Option (String → Nat)) (r : Nat)
    (batches : List (List String)) :
    (ringOfAll ofn r batches).keys.Perm (allPoints (hashFn ofn) r batches.flatten) := by
  have := (foldl_Add_spec batches (Map.New r ofn)).2.2.1
  simpa [Map.New, hashFn] using this

theorem ringOfAll_hashMap (ofn : Option (String → Nat)) (r : Nat)
    (batches : List (List String)) (p : Nat) :
    (ringOfAll ofn r batches).hashMap p
      = (lastOwner? (hashFn ofn) r batches.flatten p).getD "" :=
  (foldl_Add_spec batches (Map.New r ofn)).2.2.2 p

theorem get_empty (m : Map) (key : String) (h : m.keys = []) : m.Get key = "" := by
  unfold Map.Get
  rw [if_pos (by rw [h]; rfl)]

/-! ### The HTTP pool -/

theorem foldl_update_getter (bp : String) (l : List String) :
    ∀ (g0 : String → Option httpGetter) (n : String),
      (l.foldl
          (fun g peer => Function.update g peer (some { baseURL := peer ++ bp }))
          g0) n
        = if n ∈ l then some { baseURL := n ++ bp } else g0 n := by
  induction l with
  | nil => intro g0 n; simp
  | cons a t ih =>
    intro g0 n
    rw [List.foldl_cons, ih]
    by_cases hnt : n ∈ t
    · simp [hnt]
    · simp only [hnt, if_false, List.mem_cons, or_false]
      rw [Function.update_apply]
      by_cases hna : n = a
      · subst hna; simp
      · simp [hna]

theorem Set_peers (p : HTTPPool) (l : List String) :
    (p.Set l).peers = some (ringOf none defaultReplicate l) := rfl

theorem Set_self (p : HTTPPool) (l : List String) : (p.Set l).self = p.self := rfl

theorem Set_basePath (p : HTTPPool) (l : List String) :
    (p.Set l).basePath = p.basePath := rfl

theorem Set_httpGetters (p : HTTPPool) (l : List String) (n : String) :
    (p.Set l).httpGetters n
      = if n ∈ l then some { baseURL := n ++ p.basePath } else none := by
  have h : (p.Set l).httpGetters
      = l.foldl
          (fun g peer => Function.update g peer (some { baseURL := peer ++ p.basePath }))
          (fun _ => none) := rfl
  rw [h, foldl_update_getter]

theorem ringOf_Get_mem (ofn : Option (String → Nat)) (r : Nat) (nds : List String)
    (key : String) (hne : (ringOf ofn r nds).keys ≠ []) :
    (ringOf ofn r nds).Get key ∈ nds := by
  rw [Get_eq_selPoint _ _ hne]
  have hmem : selPoint ((ringOf ofn r nds).hash key) (ringOf ofn r nds).keys
      ∈ (ringOf ofn r nds).keys := selPoint_mem hne
  have hall : selPoint ((ringOf ofn r nds).hash key) (ringOf ofn r nds).keys
      ∈ allPoints (hashFn ofn) r nds :=
    (ringOf_keys_perm ofn r nds).mem_iff.mp hmem
  obtain ⟨x, hx⟩ := lastOwner?_isSome hall
  rw [ringOf_hashMap, hx]
  exact (lastOwner?_mem hx).1

/-! ### Claim theorems -/

/-- C1: for every key, `PickPeer` returns not-found whenever the current ring
resolves the key to the pool's own `self` identifier or to the empty sentinel
`""`; when the ring resolves it to a non-empty identifier different from
`self`, `PickPeer` returns that node's client from the getter map together
with a `true` found flag. -/
theorem pickPeer_routing (p : HTTPPool) (m : Map) (key : String)
    (hm : p.peers = some m) :
    ((m.Get key = "" ∨ m.Get key = p.self) →
        p.PickPeer key = some (none, false))
    ∧ (m.Get key ≠ "" → m.Get key ≠ p.self →
        p.PickPeer key = some (p.httpGetters (m.Get key), true)) := by
  unfold HTTPPool.PickPeer
  rw [hm]
  constructor
  · intro h
    have hnot : ¬ (m.Get key ≠ "" ∧ m.Get key ≠ p.self) := by
      rcases h with h | h <;> simp [h]
    simp only [if_neg hnot]
  · intro h1 h2
    simp only [if_pos (And.intro h1 h2)]

/-- Witness for C1: on a pool whose membership was set to the empty list the
ring resolves every key to the empty sentinel, and `PickPeer` reports
not-found. -/
theorem pickPeer_routing_witness :
    ((NewHttpPool ("A")).Set []).PickPeer ("k") = some (none, false) :=
  (pickPeer_routing ((NewHttpPool ("A")).Set [])
      (ringOf none defaultReplicate []) ("k") rfl).1
    (Or.inl (get_empty _ _ rfl))

/-- C5: a request whose path does not begin with the configured base path
makes `ServeHTTP` abort with a panic carrying the offending path
(`panic("HTTPPool serving unexpected path: " + path)`, line 45 of
`src/unnamed/part_000`): the mismatch is loudly reported and processing of
that request stops with no response written.  Go's `net/http` server
recovers panics raised inside a handler, logging them and closing only the
active connection, so the fatal error is confined to that single request and
the serving process itself survives. -/
theorem serveHTTP_path_mismatch (p : HTTPPool)
    (getGroup : String → Option (String → Except String (List Nat)))
    (marshal : List Nat → Except String (List Nat)) (path : String)
    (h : p.basePath.toList.isPrefixOf path.toList = false) :
    ServeHTTP p getGroup marshal path
      = HTTPResult.panicked ("HTTPPool serving unexpected path: " ++ path) := by
  unfold ServeHTTP
  rw [h]
  rfl

/-- Witness for C5: a pool with the default base path `/_cache/` receiving a
request at `/other/x` panics for that request. -/
theorem serveHTTP_path_mismatch_witness :
    ServeHTTP (NewHttpPool ("A")) (fun _ => none) (fun v => Except.ok v) ("/other/x")
      = HTTPResult.panicked ("HTTPPool serving unexpected path: " ++ "/other/x") :=
  serveHTTP_path_mismatch _ _ _ _ (by decide)

/-- C6: a request whose path does begin with the base path but whose
remainder does not split into exactly two segments (`strings.SplitN(_, "/", 2)`
yields fewer than two parts) is answered with the 400 client error
`bad request` — no crash and no success. -/
theorem serveHTTP_malformed_path (p : HTTPPool)
    (getGroup : String → Option (String → Except String (List Nat)))
    (marshal : List Nat → Except String (List Nat)) (path : String)
    (hpre : p.basePath.toList.isPrefixOf path.toList = true)
    (hcount : (splitN2 (String.mk (path.toList.drop p.basePath.toList.length))).length ≠ 2) :
    ServeHTTP p getGroup marshal path = HTTPResult.errorResp 400 ("bad request") := by
  unfold ServeHTTP
  rw [hpre]
  simp only [Bool.not_true, Bool.false_eq_true, if_false]
  rw [if_pos hcount]

/-- Witness for C6: the request `/_cache/justonesegment` (no second slash)
yields the 400 response. -/
theorem serveHTTP_malformed_path_witness :
    ServeHTTP (NewHttpPool ("A")) (fun _ => none) (fun v => Except.ok v)
        ("/_cache/justonesegment")
      = HTTPResult.errorResp 400 ("bad request") :=
  serveHTTP_malformed_path _ _ _ _ (by decide) (by decide)

/-- C7 (code bug): in `httpGetter.Get` the error returned by
`ioutil.ReadAll` is overwritten by `err = proto.Unmarshal(bytes, out)` before
it is ever tested, so the `"reading response body"` branch is dead code.  On
a 200 response whose body read fails (here: zero bytes plus an
`unexpected EOF` read error, and a decoder that accepts the empty partial
body, as `proto.Unmarshal` does) the call reports success instead of the
distinguishable reading error the spec requires. -/
theorem readError_swallowed :
    httpGetter.Get
        (fun _ => Except.ok
          { statusCode := 200, status := ("200 OK"), bodyBytes := [],
            readError := some ("unexpected EOF") })
        (fun bytes =>
          if bytes = [] then Except.ok { value := [] }
          else Except.error ("proto: cannot parse"))
        (fun s => s)
        { baseURL := ("http://peer/_cache/") } ("g") ("k")
      = Except.ok { value := [] } := by
  rfl

theorem nodePoints_length (fn : String → Nat) (r : Nat) (nd : String) :
    (nodePoints fn r nd).length = r := by
  simp [nodePoints]

/-- C2 (amended): on a non-empty ring, a key whose hash is strictly greater
than every ring point wraps around: `Get` returns the node bound to the
smallest point (index 0 of the sorted point list), without error — this
unconditionally; provided additionally that the empty string is not among
the added node identifiers, the result is not the empty sentinel.  (That
proviso, scoped to the non-sentinel clause only, is forced by the
counterexample `get_wraparound_cex`: the code accepts `""` as a node,
conflating it with the sentinel.) -/
theorem get_wraparound (ofn : Option (String → Nat)) (r : Nat) (nds : List String)
    (key : String)
    (hne : (ringOf ofn r nds).keys ≠ [])
    (hgt : ∀ q ∈ (ringOf ofn r nds).keys, q < hashFn ofn key) :
    (ringOf ofn r nds).Get key
        = (ringOf ofn r nds).hashMap ((ringOf ofn r nds).keys.headD 0)
    ∧ (¬ ("" ∈ nds) → (ringOf ofn r nds).Get key ≠ "") := by
  have hmem := ringOf_Get_mem ofn r nds key hne
  constructor
  · rw [Get_eq_selPoint _ _ hne]
    have hhash : (ringOf ofn r nds).hash = hashFn ofn := ringOf_hash ofn r nds
    have hnone : (ringOf ofn r nds).keys.find?
        (fun q => decide ((ringOf ofn r nds).hash key ≤ q)) = none := by
      rw [List.find?_eq_none]
      intro x hx
      have := hgt x hx
      rw [hhash]
      simp only [decide_eq_true_eq]
      omega
    unfold selPoint
    rw [hnone]
  · intro hid hcontra
    rw [hcontra] at hmem
    exact hid hmem

/-- Witness for C2: hash = string length, one node `A` with one replica
(single point 2 = `|"0A"|`), key `xyz` with hash 3 past every point: `Get`
wraps to the smallest point, owned by `A`. -/
theorem get_wraparound_witness :
    (ringOf (some (fun s => s.length)) 1 ["A"]).Get ("xyz")
        = (ringOf (some (fun s => s.length)) 1 ["A"]).hashMap
            ((ringOf (some (fun s => s.length)) 1 ["A"]).keys.headD 0)
    ∧ (ringOf (some (fun s => s.length)) 1 ["A"]).Get ("xyz") ≠ "" := by
  have h := get_wraparound (some (fun s => s.length)) 1 ["A"] ("xyz")
    (by decide) (by decide)
  exact ⟨h.1, h.2 (by decide)⟩

/-- C8: `Add` is not idempotent.  Re-adding a node that is already the sole
registered node appends `replicates` additional points for it (the point
list grows by exactly `r`, by the same point multiset again), and the node's
effective weight — the number of ring points bound to it — rises from `r`
to `r + r` instead of staying at `r`. -/
theorem add_repeated_inflates (ofn : Option (String → Nat)) (r : Nat) (nd : String) :
    (((ringOf ofn r [nd]).Add [nd]).keys.length = (ringOf ofn r [nd]).keys.length + r)
    ∧ ((ringOf ofn r [nd]).Add [nd]).keys.Perm
        ((ringOf ofn r [nd]).keys ++ nodePoints (hashFn ofn) r nd)
    ∧ (((ringOf ofn r [nd]).Add [nd]).weight nd = (ringOf ofn r [nd]).weight nd + r)
    ∧ ((ringOf ofn r [nd]).weight nd = r) := by
  have hone : allPoints (hashFn ofn) r [nd] = nodePoints (hashFn ofn) r nd := by
    simp [allPoints]
  have hperm1 : (ringOf ofn r [nd]).keys.Perm (nodePoints (hashFn ofn) r nd) := by
    have := ringOf_keys_perm ofn r [nd]
    rwa [hone] at this
  have hperm2 : ((ringOf ofn r [nd]).Add [nd]).keys.Perm
      ((ringOf ofn r [nd]).keys ++ nodePoints (hashFn ofn) r nd) := by
    rw [Add_keys, ringOf_hash, ringOf_replicates, hone]
    exact List.perm_insertionSort (· ≤ ·) _
  have hlen1 : (ringOf ofn r [nd]).keys.length = r := by
    rw [hperm1.length_eq, nodePoints_length]
  have hlen2 : ((ringOf ofn r [nd]).Add [nd]).keys.length
      = (ringOf ofn r [nd]).keys.length + r := by
    rw [hperm2.length_eq, List.length_append, nodePoints_length]
  have hmem1 : ∀ q ∈ (ringOf ofn r [nd]).keys, q ∈ nodePoints (hashFn ofn) r nd :=
    fun q hq => hperm1.mem_iff.mp hq
  have howner : ∀ q ∈ nodePoints (hashFn ofn) r nd,
      lastOwner? (hashFn ofn) r [nd] q = some nd := by
    intro q hq
    unfold lastOwner?
    simp [List.find?, hq]
  have hmap1 : ∀ q ∈ (ringOf ofn r [nd]).keys, (ringOf ofn r [nd]).hashMap q = nd := by
    intro q hq
    rw [ringOf_hashMap, howner q (hmem1 q hq)]
    rfl
  have hmap2 : ∀ q ∈ ((ringOf ofn r [nd]).Add [nd]).keys,
      ((ringOf ofn r [nd]).Add [nd]).hashMap q = nd := by
    intro q hq
    have hq2 : q ∈ nodePoints (hashFn ofn) r nd := by
      rcases List.mem_append.mp (hperm2.mem_iff.mp hq) with h | h
      · exact hmem1 q h
      · exact h
    rw [Add_hashMap, ringOf_hash, ringOf_replicates, howner q hq2]
    rfl
  have hw1 : (ringOf ofn r [nd]).weight nd = (ringOf ofn r [nd]).keys.length := by
    unfold Map.weight
    exact List.countP_eq_length.mpr (fun a ha => decide_eq_true (hmap1 a ha))
  have hw2 : ((ringOf ofn r [nd]).Add [nd]).weight nd
      = ((ringOf ofn r [nd]).Add [nd]).keys.length := by
    unfold Map.weight
    exact List.countP_eq_length.mpr (fun a ha => decide_eq_true (hmap2 a ha))
  refine ⟨hlen2, hperm2, ?_, ?_⟩
  · rw [hw2, hlen2, hw1]
  · rw [hw1, hlen1]

theorem ringOfAll_Get_mem (ofn : Option (String → Nat)) (r : Nat)
    (batches : List (List String)) (key : String)
    (hne : (ringOfAll ofn r batches).keys ≠ []) :
    (ringOfAll ofn r batches).Get key ∈ batches.flatten := by
  rw [Get_eq_selPoint _ _ hne]
  have hmem : selPoint ((ringOfAll ofn r batches).hash key) (ringOfAll ofn r batches).keys
      ∈ (ringOfAll ofn r batches).keys := selPoint_mem hne
  have hall : selPoint ((ringOfAll ofn r batches).hash key) (ringOfAll ofn r batches).keys
      ∈ allPoints (hashFn ofn) r batches.flatten :=
    (ringOfAll_keys_perm ofn r batches).mem_iff.mp hmem
  obtain ⟨x, hx⟩ := lastOwner?_isSome hall
  rw [ringOfAll_hashMap, hx]
  exact (lastOwner?_mem hx).1

/-- C10: if the hash function sends virtual-replica `i` of node `A` and
virtual-replica `j` of the later-added node `B` to the same point `p`, then
after adding `A` then `B` the point-to-owner table binds `p` to `B` (last
writer wins) while `p` occurs at least twice in the point list; every `Get`
that resolves to point `p` answers `B`, never `A`; and when every point of
`A` collides with a point of `B`, node `A` becomes entirely unreachable even
though it was never removed. -/
theorem collision_last_writer (fn : String → Nat) (r : Nat) (A B : String)
    (i j p : Nat) (hi : i < r) (hj : j < r)
    (hpA : fn (Nat.repr i ++ A) = p) (hpB : fn (Nat.repr j ++ B) = p)
    (hAB : A ≠ B) :
    ((ringOf (some fn) r [A, B]).hashMap p = B)
    ∧ (2 ≤ (ringOf (some fn) r [A, B]).keys.count p)
    ∧ (∀ key, selPoint (fn key) (ringOf (some fn) r [A, B]).keys = p →
        (ringOf (some fn) r [A, B]).Get key = B)
    ∧ ((∀ q ∈ nodePoints fn r A, q ∈ nodePoints fn r B) →
        ∀ key, (ringOf (some fn) r [A, B]).Get key ≠ A) := by
  have hf : hashFn (some fn) = fn := rfl
  have hmemA : p ∈ nodePoints fn r A := by
    rw [← hpA]
    exact List.mem_map_of_mem _ (List.mem_range.mpr hi)
  have hmemB : p ∈ nodePoints fn r B := by
    rw [← hpB]
    exact List.mem_map_of_mem _ (List.mem_range.mpr hj)
  have hownerB : ∀ q, q ∈ nodePoints fn r B →
      lastOwner? fn r [A, B] q = some B := by
    intro q hq
    unfold lastOwner?
    simp [List.find?, hq]
  have hmap : (ringOf (some fn) r [A, B]).hashMap p = B := by
    rw [ringOf_hashMap, hf, hownerB p hmemB]
    rfl
  have hne : (ringOf (some fn) r [A, B]).keys ≠ [] := by
    intro hcontra
    have hperm := ringOf_keys_perm (some fn) r [A, B]
    rw [hcontra] at hperm
    have := hperm.symm.eq_nil
    rw [hf] at this
    have hmem2 : p ∈ allPoints fn r [A, B] :=
      mem_allPoints.mpr ⟨A, List.mem_cons_self A [B], hmemA⟩
    rw [this] at hmem2
    simp at hmem2
  have hget : ∀ key, (ringOf (some fn) r [A, B]).Get key
      = (ringOf (some fn) r [A, B]).hashMap
          (selPoint (fn key) (ringOf (some fn) r [A, B]).keys) := by
    intro key
    have := Get_eq_selPoint (ringOf (some fn) r [A, B]) key hne
    rwa [ringOf_hash, hf] at this
  refine ⟨hmap, ?_, ?_, ?_⟩
  · have hperm := ringOf_keys_perm (some fn) r [A, B]
    rw [hf] at hperm
    rw [hperm.count_eq p]
    have : allPoints fn r [A, B] = nodePoints fn r A ++ (nodePoints fn r B ++ []) := rfl
    rw [this, List.count_append, List.count_append]
    have h1 : 0 < (nodePoints fn r A).count p := List.count_pos_iff.mpr hmemA
    have h2 : 0 < (nodePoints fn r B).count p := List.count_pos_iff.mpr hmemB
    omega
  · intro key hsel
    rw [hget key, hsel, hmap]
  · intro hsub key
    rw [hget key]
    have hks : selPoint (fn key) (ringOf (some fn) r [A, B]).keys
        ∈ (ringOf (some fn) r [A, B]).keys := selPoint_mem hne
    have hmemsel : selPoint (fn key) (ringOf (some fn) r [A, B]).keys
        ∈ allPoints fn r [A, B] := by
      have h2 := (ringOf_keys_perm (some fn) r [A, B]).mem_iff.mp hks
      rwa [hf] at h2
    have hinB : selPoint (fn key) (ringOf (some fn) r [A, B]).keys
        ∈ nodePoints fn r B := by
      rcases mem_allPoints.mp hmemsel with ⟨nd, hnd, hq⟩
      rcases List.mem_cons.mp hnd with rfl | hnd2
      · exact hsub _ hq
      · rcases List.mem_cons.mp hnd2 with rfl | hnd3
        · exact hq
        · simp at hnd3
    rw [ringOf_hashMap, hf, hownerB _ hinB]
    exact fun hcontra => hAB (by simpa using hcontra.symm)

/-- Witness for C10: with the constant hash `5`, one replica and nodes
`A` then `B`, both points coincide at `5`; every lookup answers `B` and `A`
is unreachable. -/
theorem collision_last_writer_witness :
    (ringOf (some (fun _ => 5)) 1 ["A", "B"]).Get ("k") = "B"
    ∧ (ringOf (some (fun _ => 5)) 1 ["A", "B"]).Get ("k") ≠ "A" := by
  have h := collision_last_writer (fun _ => 5) 1 ("A") ("B") 0 0 5
    (by decide) (by decide) rfl rfl (by decide)
  exact ⟨h.2.2.1 ("k") (by decide), h.2.2.2 (by decide) ("k")⟩

/-- C3 (amended): over an arbitrary history of `Add` calls, provided the
replica count is at least 1 (the spec's own construction precondition, §4.1)
and the empty string is never added as a node identifier, `Get` returns the
empty sentinel `""` exactly when no node has ever been added, and on a ring
with at least one added node it always returns one of the added
identifiers.  (Both provisos are forced by `get_sentinel_coverage_cex`.) -/
theorem get_sentinel_coverage (ofn : Option (String → Nat)) (r : Nat)
    (batches : List (List String)) (key : String)
    (hr : 1 ≤ r) (hid : ¬ ("" ∈ batches.flatten)) :
    ((ringOfAll ofn r batches).Get key = "" ↔ batches.flatten = [])
    ∧ (batches.flatten ≠ [] →
        (ringOfAll ofn r batches).Get key ∈ batches.flatten) := by
  by_cases hflat : batches.flatten = []
  · have hkeys : (ringOfAll ofn r batches).keys = [] := by
      have hperm := ringOfAll_keys_perm ofn r batches
      rw [hflat] at hperm
      have : allPoints (hashFn ofn) r [] = [] := rfl
      rw [this] at hperm
      exact hperm.eq_nil
    refine ⟨?_, fun hcontra => absurd hflat hcontra⟩
    rw [get_empty _ _ hkeys]
    simp [hflat]
  · have hlenpos : 0 < (ringOfAll ofn r batches).keys.length := by
      rw [(ringOfAll_keys_perm ofn r batches).length_eq, allPoints_length]
      have : 0 < batches.flatten.length := List.length_pos.mpr hflat
      exact Nat.mul_pos (by omega) this
    have hne : (ringOfAll ofn r batches).keys ≠ [] := by
      intro hcontra
      rw [hcontra] at hlenpos
      simp at hlenpos
    have hmem := ringOfAll_Get_mem ofn r batches key hne
    have hnz : (ringOfAll ofn r batches).Get key ≠ "" := by
      intro hcontra
      rw [hcontra] at hmem
      exact hid hmem
    exact ⟨⟨fun h => absurd h hnz, fun h => absurd h hflat⟩, fun _ => hmem⟩

/-- Witness for C3: hash = string length, one replica, a single `Add` of
node `A`: every lookup returns `A`, one of the added identifiers. -/
theorem get_sentinel_coverage_witness :
    (ringOfAll (some (fun s => s.length)) 1 [["A"]]).Get ("k") ∈ [["A"]].flatten :=
  (get_sentinel_coverage (some (fun s => s.length)) 1 [["A"]] ("k")
      (by decide) (by decide)).2 (by decide)

theorem ringOf_get_single (ofn : Option (String → Nat)) (r : Nat) (nd key : String)
    (hr : 1 ≤ r) : (ringOf ofn r [nd]).Get key = nd := by
  have hne : (ringOf ofn r [nd]).keys ≠ [] := by
    intro hcontra
    have hlen := (ringOf_keys_perm ofn r [nd]).length_eq
    rw [hcontra, allPoints_length] at hlen
    simp at hlen
    omega
  have hmem := ringOf_Get_mem ofn r [nd] key hne
  simpa using hmem

/-- C9, counterexample: the claim that after `Set` the set of node
identifiers the ring can return *equals* the key set of the client map fails
for the membership list `[""]`: `Set` installs a client under the key `""`
(base URL = the bare base path), yet `""` is the ring's empty/absent
sentinel, not a node identifier the ring can return. -/
theorem ring_clients_equality_cex :
    ¬ (∀ n, ((NewHttpPool ("self")).Set [""]).ringReturnable n
        ↔ ((NewHttpPool ("self")).Set [""]).httpGetters n ≠ none) := by
  intro h
  have hg : ((NewHttpPool ("self")).Set [""]).httpGetters "" ≠ none := by
    rw [Set_httpGetters]
    simp
  exact ((h "").mpr hg).1 rfl

/-- C9 (amended): after any `setPeers` call the ring and the client map are
consistent in the following sense: every node identifier the ring can return
has a present client in the map, configured with that node's address plus
the shared base path; consequently whenever `PickPeer` reports
`found = true` it hands back the present, non-nil client of the owning node.
(The key set of the client map can strictly exceed the set of identifiers
the ring can return — e.g. for the empty identifier, or for a node whose
every virtual point was overwritten by a later node's colliding points — so
the original equality is weakened to this inclusion.) -/
theorem setPeers_ring_clients_consistent (p : HTTPPool) (l : List String)
    (n key : String) :
    ((p.Set l).ringReturnable n →
        (p.Set l).httpGetters n = some { baseURL := n ++ p.basePath })
    ∧ (∀ g : Option httpGetter,
        (p.Set l).PickPeer key = some (g, true) →
          ∃ peer, peer ∈ l ∧ peer ≠ "" ∧ peer ≠ p.self
            ∧ (ringOf none defaultReplicate l).Get key = peer
            ∧ g = some { baseURL := peer ++ p.basePath }) := by
  constructor
  · rintro ⟨hn, m, hm, k, hk⟩
    rw [Set_peers] at hm
    have hm2 : m = ringOf none defaultReplicate l := (Option.some.inj hm).symm
    subst hm2
    have hne : (ringOf none defaultReplicate l).keys ≠ [] := by
      intro hcontra
      rw [get_empty _ _ hcontra] at hk
      exact hn hk.symm
    have hmem : n ∈ l := by
      rw [← hk]
      exact ringOf_Get_mem none defaultReplicate l k hne
    rw [Set_httpGetters, if_pos hmem]
  · intro g hpick
    have hpick2 :
        (if (ringOf none defaultReplicate l).Get key ≠ ""
            ∧ (ringOf none defaultReplicate l).Get key ≠ (p.Set l).self
          then some ((p.Set l).httpGetters ((ringOf none defaultReplicate l).Get key), true)
          else some ((none : Option httpGetter), false))
          = some (g, true) := hpick
    by_cases hcond : (ringOf none defaultReplicate l).Get key ≠ ""
        ∧ (ringOf none defaultReplicate l).Get key ≠ (p.Set l).self
    · rw [if_pos hcond] at hpick2
      have hpair := Option.some.inj hpick2
      have hg : g = (p.Set l).httpGetters ((ringOf none defaultReplicate l).Get key) :=
        (congrArg Prod.fst hpair).symm
      have hne : (ringOf none defaultReplicate l).keys ≠ [] := by
        intro hcontra
        exact hcond.1 (get_empty _ _ hcontra)
      have hmem : (ringOf none defaultReplicate l).Get key ∈ l :=
        ringOf_Get_mem none defaultReplicate l key hne
      refine ⟨(ringOf none defaultReplicate l).Get key, hmem, hcond.1, hcond.2, rfl, ?_⟩
      rw [hg, Set_httpGetters, if_pos hmem]
    · rw [if_neg hcond] at hpick2
      have hpair := Option.some.inj hpick2
      have : False := by
        have := congrArg Prod.snd hpair
        simp at this
      exact absurd this (by simp)

/-- Witness for C9 (amended): `self = "y"`, membership `["x"]`: `PickPeer`
finds the owner `x` and returns its present client whose base URL is
`x/_cache/`, matching the client map entry. -/
theorem setPeers_ring_clients_consistent_witness :
    ((NewHttpPool ("y")).Set ["x"]).PickPeer ("k")
        = some (some { baseURL := ("x") ++ ("/_cache/") }, true)
    ∧ ((NewHttpPool ("y")).Set ["x"]).httpGetters ("x")
        = some { baseURL := ("x") ++ ("/_cache/") } := by
  have hget : (ringOf none defaultReplicate ["x"]).Get ("k") = "x" :=
    ringOf_get_single none defaultReplicate ("x") ("k") (by decide)
  have hcond : (ringOf none defaultReplicate ["x"]).Get ("k") ≠ ""
      ∧ (ringOf none defaultReplicate ["x"]).Get ("k")
          ≠ ((NewHttpPool ("y")).Set ["x"]).self := by
    rw [hget]
    exact ⟨by decide, by decide⟩
  have hpick : ((NewHttpPool ("y")).Set ["x"]).PickPeer ("k")
      = some (((NewHttpPool ("y")).Set ["x"]).httpGetters
          ((ringOf none defaultReplicate ["x"]).Get ("k")), true) := by
    show (if (ringOf none defaultReplicate ["x"]).Get ("k") ≠ ""
            ∧ (ringOf none defaultReplicate ["x"]).Get ("k")
                ≠ ((NewHttpPool ("y")).Set ["x"]).self
          then some (((NewHttpPool ("y")).Set ["x"]).httpGetters
              ((ringOf none defaultReplicate ["x"]).Get ("k")), true)
          else some ((none : Option httpGetter), false))
          = _
    rw [if_pos hcond]
  obtain ⟨peer, hmem, hne1, hne2, hgp, hgeq⟩ :=
    (setPeers_ring_clients_consistent (NewHttpPool ("y")) ["x"] ("x") ("k")).2
      (((NewHttpPool ("y")).Set ["x"]).httpGetters
        ((ringOf none defaultReplicate ["x"]).Get ("k"))) hpick
  have hpeer : peer = "x" := by rw [← hgp, hget]
  subst hpeer
  have hmap : ((NewHttpPool ("y")).Set ["x"]).httpGetters
      ((ringOf none defaultReplicate ["x"]).Get ("k"))
      = some { baseURL := ("x") ++ ("/_cache/") } := hgeq
  constructor
  · rw [hpick, hmap]
  · have hmap2 := hmap
    rw [hget] at hmap2
    exact hmap2

/-- C4: minimal disruption.  For a duplicate-free node set `S`, a node
`n ∈ S` and any key: if the ring built from `S` resolves the key to an owner
other than `n`, the ring rebuilt from `S` without `n` (same replica count,
same hash function) resolves it to the same owner — removing a node can only
move keys whose nearest-clockwise point was bound to the removed node. -/
theorem minimal_disruption (ofn : Option (String → Nat)) (r : Nat) (S : List String)
    (n k : String) (hnd : S.Nodup) (hn : n ∈ S)
    (hown : (ringOf ofn r S).Get k ≠ n) :
    (ringOf ofn r (S.erase n)).Get k = (ringOf ofn r S).Get k := by
  by_cases hK : (ringOf ofn r S).keys = []
  · have hap : allPoints (hashFn ofn) r S = [] := by
      have hperm := ringOf_keys_perm ofn r S
      rw [hK] at hperm
      exact hperm.symm.eq_nil
    have hap2 : allPoints (hashFn ofn) r (S.erase n) = [] := by
      rw [List.eq_nil_iff_forall_not_mem]
      intro q hq
      obtain ⟨nd, hnd2, hqn⟩ := mem_allPoints.mp hq
      have hmem : q ∈ allPoints (hashFn ofn) r S :=
        mem_allPoints.mpr ⟨nd, List.erase_subset _ _ hnd2, hqn⟩
      rw [hap] at hmem
      simp at hmem
    have hK2 : (ringOf ofn r (S.erase n)).keys = [] := by
      have hperm := ringOf_keys_perm ofn r (S.erase n)
      rw [hap2] at hperm
      exact hperm.eq_nil
    rw [get_empty _ _ hK, get_empty _ _ hK2]
  · have hGetS : (ringOf ofn r S).Get k
        = (ringOf ofn r S).hashMap (selPoint (hashFn ofn k) (ringOf ofn r S).keys) := by
      have h := Get_eq_selPoint (ringOf ofn r S) k hK
      rwa [ringOf_hash] at h
    have hqkeys : selPoint (hashFn ofn k) (ringOf ofn r S).keys ∈ (ringOf ofn r S).keys :=
      selPoint_mem hK
    have hqall : selPoint (hashFn ofn k) (ringOf ofn r S).keys
        ∈ allPoints (hashFn ofn) r S :=
      (ringOf_keys_perm ofn r S).mem_iff.mp hqkeys
    obtain ⟨X, hX⟩ := lastOwner?_isSome hqall
    have hmapS : (ringOf ofn r S).hashMap (selPoint (hashFn ofn k) (ringOf ofn r S).keys)
        = X := by
      rw [ringOf_hashMap, hX]
      rfl
    have hXn : X ≠ n := by
      intro hcontra
      apply hown
      rw [hGetS, hmapS, hcontra]
    obtain ⟨hXS, hqX⟩ := lastOwner?_mem hX
    have hXerase : X ∈ S.erase n := (List.mem_erase_of_ne hXn).mpr hXS
    have hqall2 : selPoint (hashFn ofn k) (ringOf ofn r S).keys
        ∈ allPoints (hashFn ofn) r (S.erase n) :=
      mem_allPoints.mpr ⟨X, hXerase, hqX⟩
    have hqkeys2 : selPoint (hashFn ofn k) (ringOf ofn r S).keys
        ∈ (ringOf ofn r (S.erase n)).keys :=
      (ringOf_keys_perm ofn r (S.erase n)).mem_iff.mpr hqall2
    have hK2 : (ringOf ofn r (S.erase n)).keys ≠ [] := by
      intro h
      rw [h] at hqkeys2
      simp at hqkeys2
    have hsub : ∀ y ∈ (ringOf ofn r (S.erase n)).keys, y ∈ (ringOf ofn r S).keys := by
      intro y hy
      have hy2 := (ringOf_keys_perm ofn r (S.erase n)).mem_iff.mp hy
      obtain ⟨nd, hnd2, hyn⟩ := mem_allPoints.mp hy2
      exact (ringOf_keys_perm ofn r S).mem_iff.mpr
        (mem_allPoints.mpr ⟨nd, List.erase_subset _ _ hnd2, hyn⟩)
    have hsel2 : selPoint (hashFn ofn k) (ringOf ofn r (S.erase n)).keys
        = selPoint (hashFn ofn k) (ringOf ofn r S).keys :=
      selPoint_eq_of_sub (ringOf_keys_sorted ofn r S)
        (ringOf_keys_sorted ofn r (S.erase n)) hsub hqkeys2
    have hGetE : (ringOf ofn r (S.erase n)).Get k
        = (ringOf ofn r (S.erase n)).hashMap
            (selPoint (hashFn ofn k) (ringOf ofn r S).keys) := by
      have h := Get_eq_selPoint (ringOf ofn r (S.erase n)) k hK2
      rw [ringOf_hash] at h
      rw [h, hsel2]
    have hlast2 : lastOwner? (hashFn ofn) r (S.erase n)
        (selPoint (hashFn ofn k) (ringOf ofn r S).keys) = some X :=
      lastOwner?_erase hnd hX hXn
    have hmapE : (ringOf ofn r (S.erase n)).hashMap
        (selPoint (hashFn ofn k) (ringOf ofn r S).keys) = X := by
      rw [ringOf_hashMap, hlast2]
      rfl
    rw [hGetE, hmapE, hGetS, hmapS]

/-- Witness for C4: hash = string length, one replica, nodes `A` (point 2)
and `BB` (point 3); the key `xy` (hash 2) is owned by `A`; removing `BB`
leaves its owner unchanged. -/
theorem minimal_disruption_witness :
    (ringOf (some (fun s => s.length)) 1 (["A", "BB"].erase ("BB"))).Get ("xy")
      = (ringOf (some (fun s => s.length)) 1 ["A", "BB"]).Get ("xy") :=
  minimal_disruption (some (fun s => s.length)) 1 ["A", "BB"] ("BB") ("xy")
    (by decide) (by decide) (by decide)

/-- C2, counterexample: with hash = string length, one replica and the single
node `""` (which Go accepts), the ring is non-empty, the key `xyz` hashes past
every point, and the wrapped lookup returns the empty sentinel — the claim's
"never the empty sentinel" part fails as universally stated. -/
theorem get_wraparound_cex :
    ((ringOf (some (fun s => s.length)) 1 [""]).keys ≠ [])
    ∧ (∀ q ∈ (ringOf (some (fun s => s.length)) 1 [""]).keys,
        q < hashFn (some (fun s => s.length)) ("xyz"))
    ∧ (ringOf (some (fun s => s.length)) 1 [""]).Get ("xyz") = "" := by
  decide

/-- C3, counterexample: the claimed equivalence "`Get` returns the empty
sentinel iff no node has ever been added" fails on the code in two ways Go
permits: adding the node `""` (left conjunct), and constructing the ring
with replica count 0 so that an added node places no points (right
conjunct).  In both runs a node has been added yet `Get` returns `""`. -/
theorem get_sentinel_coverage_cex :
    (([[""]].flatten ≠ [])
      ∧ (ringOfAll (some (fun s => s.length)) 1 [[""]]).Get ("k") = "")
    ∧ (([["A"]].flatten ≠ [])
      ∧ (ringOfAll (some (fun s => s.length)) 0 [["A"]]).Get ("k") = "") := by
  decide

end Cache
